import Mathlib

/-!
Shallow embedding of `src/port_strategy/mod.rs` (RustScan port ordering core).

Ports are 16-bit in the source; all the operations embedded here (cloning,
inclusive-range enumeration, permutation walks modulo `m`) stay inside the
interval data, so ports are modelled as `Nat`.

The permutation engine `range_iterator.rs` is referenced by the source
(`RangeIterator::new(start, end)` collected per range) but its file is not
among the sources; it is modelled from the spec, section 4.2.  Randomness
(`thread_rng` draws inside `RangeIterator::new`, `shuffle`) is modelled by
explicit parameters: a per-range draw of walk parameters and a shuffle
function, about which theorems assume only that it permutes its input —
the defining property of `rand`'s shuffle.
-/

namespace RustScan

/-- `ScanOrder` from `crate::input`: the policy selector. -/
inductive ScanOrder where
  | Serial : ScanOrder
  | Random : ScanOrder
deriving DecidableEq

/-- `PortRange` from `crate::input`: an ordered list of `(start, end)` pairs. -/
structure PortRange where
  ranges : List (Nat × Nat)
deriving DecidableEq

/-- `SerialRange` of `mod.rs`. -/
structure SerialRange where
  ranges : List (Nat × Nat)
deriving DecidableEq

/-- `RandomRange` of `mod.rs`. -/
structure RandomRange where
  ranges : List (Nat × Nat)
deriving DecidableEq

/-- The `PortStrategy` enum of `mod.rs`. -/
inductive PortStrategy where
  | Manual : List Nat → PortStrategy
  | Serial : SerialRange → PortStrategy
  | Random : RandomRange → PortStrategy
deriving DecidableEq

/-- Embedding of Rust `(start..=end).collect::<Vec<u16>>()`: the ascending
list of the `end + 1 - start` integers from `start`; empty when
`start > end` (truncated subtraction), exactly as the Rust inclusive range
iterator is empty then. -/
def rangePorts (pr : Nat × Nat) : List Nat :=
  List.range' pr.1 (pr.2 + 1 - pr.1)

/-- `SerialRange::generate` of `mod.rs`: flat-map each `(start, end)` pair to
`(start..=end).collect()`. -/
def SerialRange.generate (r : SerialRange) : List Nat :=
  r.ranges.flatMap rangePorts

/-- Modelled from the spec: one step of the linear-congruential recurrence
`x' = (a * x + c) mod m` of the Permutation Engine (spec section 4.2 step 2);
`range_iterator.rs` is not among the sources. -/
def lcgStep (a c m x : Nat) : Nat :=
  (a * x + c) % m

/-- Modelled from the spec: the k-th residue of the recurrence walk started
at the seed (spec section 4.2 step 3); `range_iterator.rs` is not among the
sources. -/
def lcgWalk (a c m seed : Nat) : Nat → Nat
  | 0 => seed % m
  | k + 1 => lcgStep a c m (lcgWalk a c m seed k)

/-- The per-range parameters `RangeIterator::new` derives and draws: modulus,
multiplier, increment, and the pseudo-random starting seed. -/
structure LcgParams where
  m : Nat
  a : Nat
  c : Nat
  seed : Nat
deriving DecidableEq

/-- Modelled from the spec: the parameters are chosen so the modulus covers
the interval (`m ≥ n`, spec section 4.2 step 1) and the recurrence visits all
`m` residues exactly once before repeating (spec section 4.2 step 2). -/
def LcgParams.full (p : LcgParams) (n : Nat) : Prop :=
  0 < p.m ∧ n ≤ p.m ∧ ∀ y < p.m, ∃ k < p.m, lcgWalk p.a p.c p.m p.seed k = y

instance (p : LcgParams) (n : Nat) : Decidable (p.full n) := by
  unfold LcgParams.full
  infer_instance

/-- Modelled from the spec: `RangeIterator::new(start, end).collect()` —
walk the recurrence for up to `m` steps, emit `x + start` whenever `x < n`
where `n = end - start + 1`, and stop after `n` emissions (spec section 4.2
steps 3 and 4); `range_iterator.rs` is not among the sources. -/
def rangeIteratorCollect (p : LcgParams) (s e : Nat) : List Nat :=
  ((((List.range p.m).map (lcgWalk p.a p.c p.m p.seed)).filter
    (fun x => x < e + 1 - s)).take (e + 1 - s)).map (fun x => x + s)

/-- The draws `RandomRange::generate` takes from the process-wide rng:
the walk parameters drawn inside `RangeIterator::new` for the i-th range,
and the final `shuffle`.  A shuffle is an arbitrary function on lists;
theorems assume only that it permutes its input. -/
structure Rng where
  draw : Nat → LcgParams
  shuffle : List Nat → List Nat

/-- `RandomRange::generate` of `mod.rs`: collect each range through
`RangeIterator`, concatenating in declaration order, then shuffle the whole. -/
def RandomRange.generate (r : RandomRange) (rng : Rng) : List Nat :=
  rng.shuffle ((r.ranges.enum).flatMap
    (fun ie => rangeIteratorCollect (rng.draw ie.1) ie.2.1 ie.2.2))

/-- `PortStrategy::order` of `mod.rs`.  The rng draws are passed explicitly;
only the `Random` arm consults them. -/
def PortStrategy.order (s : PortStrategy) (rng : Rng) : List Nat :=
  match s with
  | PortStrategy.Manual ports => ports
  | PortStrategy.Serial r => r.generate
  | PortStrategy.Random r => r.generate rng

/-- `PortStrategy::pick` of `mod.rs`.  The `.unwrap()` panic on a missing
`range` is modelled as `none`; the construction-time shuffle draw of the
`Random`-with-ports arm is the explicit `shuffle` parameter. -/
def PortStrategy.pick (range : Option PortRange) (ports : Option (List Nat))
    (order : ScanOrder) (shuffle : List Nat → List Nat) : Option PortStrategy :=
  match order, ports with
  | ScanOrder.Serial, none => range.map (fun r => PortStrategy.Serial ⟨r.ranges⟩)
  | ScanOrder.Random, none => range.map (fun r => PortStrategy.Random ⟨r.ranges⟩)
  | ScanOrder.Serial, some ps => some (PortStrategy.Manual ps)
  | ScanOrder.Random, some ps => some (PortStrategy.Manual (shuffle ps))

/-- Modelled from the spec: `n` consecutive ascending integers from `s`,
written by direct recursion. -/
def ascPortsAux : Nat → Nat → List Nat
  | 0, _ => []
  | n + 1, s => s :: ascPortsAux n (s + 1)

/-- Modelled from the spec: the ascending enumeration `start..end` inclusive
(spec section 4.1: "emit every integer from start to end inclusive,
ascending"), to be compared with the source's `rangePorts`. -/
def ascPorts (s e : Nat) : List Nat :=
  ascPortsAux (e + 1 - s) s

/-- The port count a strategy's data implies: the explicit list length, or
the sum of `end - start + 1` over the ranges. -/
def impliedCount : PortStrategy → Nat
  | PortStrategy.Manual ports => ports.length
  | PortStrategy.Serial r => (r.ranges.map (fun pr => pr.2 + 1 - pr.1)).sum
  | PortStrategy.Random r => (r.ranges.map (fun pr => pr.2 + 1 - pr.1)).sum

/-- A port is within the configured bounds: a member of the explicit list,
or inside one of the configured ranges. -/
def withinBounds : PortStrategy → Nat → Prop
  | PortStrategy.Manual ports, x => x ∈ ports
  | PortStrategy.Serial r, x => ∃ pr ∈ r.ranges, pr.1 ≤ x ∧ x ≤ pr.2
  | PortStrategy.Random r, x => ∃ pr ∈ r.ranges, pr.1 ≤ x ∧ x ≤ pr.2

/-- The configured data itself is duplicate-free: the explicit list has no
duplicates, or the configured ranges are pairwise disjoint. -/
def dataNodup : PortStrategy → Prop
  | PortStrategy.Manual ports => ports.Nodup
  | PortStrategy.Serial r =>
      r.ranges.Pairwise (fun a b => (rangePorts a).Disjoint (rangePorts b))
  | PortStrategy.Random r =>
      r.ranges.Pairwise (fun a b => (rangePorts a).Disjoint (rangePorts b))

/-- The rng draws suit the ranges: the i-th drawn parameters give a
full-period walk covering the i-th range, and the shuffle permutes. -/
def Rng.goodFor (rng : Rng) (ranges : List (Nat × Nat)) : Prop :=
  (∀ i (h : i < ranges.length),
      (rng.draw i).full ((ranges.get ⟨i, h⟩).2 + 1 - (ranges.get ⟨i, h⟩).1)) ∧
    ∀ l, List.Perm (rng.shuffle l) l

/-- The rng draws suit the strategy (trivial except for `Random`). -/
def rngOk : PortStrategy → Rng → Prop
  | PortStrategy.Random r, rng => rng.goodFor r.ranges
  | _, _ => True

/-- A fixed rng used for concrete instances: walk parameters
`m = 3, a = 1, c = 1, seed = 0` (a full-period walk `0, 1, 2`) and the
identity shuffle. -/
def rng0 : Rng :=
  ⟨fun _ => ⟨3, 1, 1, 0⟩, id⟩

/-- A second fixed rng, shuffling by reversal. -/
def rngRev : Rng :=
  ⟨fun _ => ⟨3, 1, 1, 0⟩, List.reverse⟩

/-- The sorted form of a port sequence. -/
def sortedForm (l : List Nat) : List Nat :=
  List.insertionSort (· ≤ ·) l

/-! ### Lemmas about the permutation walk -/

lemma lcgWalk_lt (a c m seed : Nat) (hm : 0 < m) :
    ∀ k, lcgWalk a c m seed k < m
  | 0 => Nat.mod_lt _ hm
  | _ + 1 => Nat.mod_lt _ hm

/-- A walk that reaches every residue below `m` within `m` steps is injective
on those steps. -/
lemma lcgWalk_inj_on (a c m seed : Nat) (hm : 0 < m)
    (hsurj : ∀ y < m, ∃ k < m, lcgWalk a c m seed k = y) :
    ∀ i < m, ∀ j < m, lcgWalk a c m seed i = lcgWalk a c m seed j → i = j := by
  classical
  have hs : Function.Surjective
      (fun k : Fin m => (⟨lcgWalk a c m seed k.1, lcgWalk_lt a c m seed hm k.1⟩ : Fin m)) := by
    intro y
    obtain ⟨k, hk, hw⟩ := hsurj y.1 y.2
    exact ⟨⟨k, hk⟩, Fin.ext hw⟩
  have hi := Finite.injective_iff_surjective.mpr hs
  intro i hi' j hj' hij
  have h2 : (⟨i, hi'⟩ : Fin m) = ⟨j, hj'⟩ := hi (Fin.ext hij)
  exact congrArg Fin.val h2

/-- Under full-period parameters the collected walk over `[s, e]` is a
permutation of the ascending range. -/
lemma rangeIteratorCollect_perm (p : LcgParams) (s e : Nat)
    (h : p.full (e + 1 - s)) :
    List.Perm (rangeIteratorCollect p s e) (List.range' s (e + 1 - s)) := by
  obtain ⟨hm, hn, hsurj⟩ := h
  set n := e + 1 - s with hn'
  set w := lcgWalk p.a p.c p.m p.seed with hw
  have hmapped_nodup : (((List.range p.m).map w)).Nodup := by
    refine List.Nodup.map_on ?_ (List.nodup_range _)
    intro i hi j hj hij
    exact lcgWalk_inj_on p.a p.c p.m p.seed hm hsurj i
      (List.mem_range.mp hi) j (List.mem_range.mp hj) hij
  have hmem_mapped : ∀ y, y ∈ (List.range p.m).map w ↔ y < p.m := by
    intro y
    constructor
    · intro hy
      obtain ⟨k, _, hk⟩ := List.mem_map.mp hy
      exact hk ▸ lcgWalk_lt p.a p.c p.m p.seed hm k
    · intro hy
      obtain ⟨k, hk, hkw⟩ := hsurj y hy
      exact List.mem_map.mpr ⟨k, List.mem_range.mpr hk, hkw⟩
  have hfil_nodup : (((List.range p.m).map w).filter (fun x => x < n)).Nodup :=
    hmapped_nodup.filter _
  have hfil_mem : ∀ y, y ∈ ((List.range p.m).map w).filter (fun x => x < n) ↔ y < n := by
    intro y
    rw [List.mem_filter]
    constructor
    · intro ⟨_, h2⟩
      exact of_decide_eq_true h2
    · intro hy
      exact ⟨(hmem_mapped y).mpr (lt_of_lt_of_le hy hn), decide_eq_true hy⟩
  have hfil_perm : List.Perm (((List.range p.m).map w).filter (fun x => x < n))
      (List.range n) := by
    refine (List.perm_ext_iff_of_nodup hfil_nodup (List.nodup_range _)).mpr ?_
    intro y
    rw [hfil_mem, List.mem_range]
  have hlen : (((List.range p.m).map w).filter (fun x => x < n)).length = n := by
    rw [hfil_perm.length_eq, List.length_range]
  have htake : ((((List.range p.m).map w).filter (fun x => x < n)).take n) =
      ((List.range p.m).map w).filter (fun x => x < n) :=
    List.take_of_length_le (le_of_eq hlen)
  have hfinal : List.Perm (rangeIteratorCollect p s e)
      ((List.range n).map (fun x => x + s)) := by
    rw [rangeIteratorCollect, ← hn', htake]
    exact hfil_perm.map _
  refine hfinal.trans ?_
  rw [List.range'_eq_map_range]
  have : ∀ x ∈ List.range n, x + s = s + x := fun x _ => Nat.add_comm x s
  rw [List.map_congr_left this]

/-! ### Lemmas about serial generation -/

lemma SerialRange.generate_length (r : SerialRange) :
    r.generate.length = (r.ranges.map (fun pr => pr.2 + 1 - pr.1)).sum := by
  rw [SerialRange.generate, List.length_flatMap]
  congr 1
  exact List.map_congr_left fun pr _ => by
    simp [rangePorts]

lemma SerialRange.mem_generate (r : SerialRange) (x : Nat) :
    x ∈ r.generate ↔ ∃ pr ∈ r.ranges, pr.1 ≤ x ∧ x ≤ pr.2 := by
  rw [SerialRange.generate]
  constructor
  · intro hx
    obtain ⟨pr, hpr, hx⟩ := List.mem_flatMap.mp hx
    rw [rangePorts, List.mem_range'_1] at hx
    exact ⟨pr, hpr, hx.1, by omega⟩
  · rintro ⟨pr, hpr, h1, h2⟩
    refine List.mem_flatMap.mpr ⟨pr, hpr, ?_⟩
    rw [rangePorts, List.mem_range'_1]
    omega

lemma SerialRange.generate_nodup (r : SerialRange)
    (hdis : r.ranges.Pairwise (fun a b => (rangePorts a).Disjoint (rangePorts b))) :
    r.generate.Nodup := by
  rw [SerialRange.generate, List.nodup_flatMap]
  exact ⟨fun pr _ => List.nodup_range' _ _, hdis⟩

/-! ### Lemmas about random generation -/

/-- The per-range collected walks, concatenated in declaration order, are a
permutation of the serial sweep (induction shifted by the first index `k`). -/
lemma enumFrom_collect_perm (rng : Rng) :
    ∀ (ranges : List (Nat × Nat)) (k : Nat),
      (∀ i (h : i < ranges.length),
          (rng.draw (k + i)).full
            ((ranges.get ⟨i, h⟩).2 + 1 - (ranges.get ⟨i, h⟩).1)) →
      List.Perm
        ((List.enumFrom k ranges).flatMap
          (fun ie => rangeIteratorCollect (rng.draw ie.1) ie.2.1 ie.2.2))
        (ranges.flatMap rangePorts)
  | [], k, _ => by simp [List.enumFrom]
  | pr :: rs, k, h => by
    rw [List.enumFrom, List.flatMap_cons, List.flatMap_cons]
    refine List.Perm.append ?_ ?_
    · exact rangeIteratorCollect_perm (rng.draw k) pr.1 pr.2
        (by simpa using h 0 (by simp))
    · refine enumFrom_collect_perm rng rs (k + 1) ?_
      intro i hi
      have := h (i + 1) (by simpa using Nat.succ_lt_succ hi)
      simpa [Nat.add_assoc, Nat.add_comm 1 i] using this

/-- `RandomRange::generate` is a permutation of the serial sweep of the same
ranges, for any good rng draws. -/
lemma RandomRange.generate_perm (r : RandomRange) (rng : Rng)
    (h : rng.goodFor r.ranges) :
    List.Perm (r.generate rng) (SerialRange.generate ⟨r.ranges⟩) := by
  rw [RandomRange.generate]
  refine (h.2 _).trans ?_
  rw [SerialRange.generate]
  have := enumFrom_collect_perm rng r.ranges 0 (by simpa using h.1)
  simpa [List.enum] using this

/-! ### Sorted forms -/

lemma sortedForm_eq_of_perm {l₁ l₂ : List Nat} (h : List.Perm l₁ l₂) :
    sortedForm l₁ = sortedForm l₂ := by
  have hp : List.Perm (sortedForm l₁) (sortedForm l₂) :=
    (List.perm_insertionSort _ l₁).trans (h.trans (List.perm_insertionSort _ l₂).symm)
  have hs₁ : List.Sorted (· ≤ ·) (sortedForm l₁) := List.sorted_insertionSort _ l₁
  have hs₂ : List.Sorted (· ≤ ·) (sortedForm l₂) := List.sorted_insertionSort _ l₂
  exact List.eq_of_perm_of_sorted hp hs₁ hs₂

lemma sortedForm_range' (s n : Nat) :
    sortedForm (List.range' s n) = List.range' s n := by
  have hp : List.Perm (sortedForm (List.range' s n)) (List.range' s n) :=
    List.perm_insertionSort _ _
  have hs₁ : List.Sorted (· ≤ ·) (sortedForm (List.range' s n)) :=
    List.sorted_insertionSort _ _
  have hs₂ : List.Sorted (· ≤ ·) (List.range' s n) := List.pairwise_le_range' s n
  exact List.eq_of_perm_of_sorted hp hs₁ hs₂

lemma ascPortsAux_eq_range' : ∀ (n s : Nat), ascPortsAux n s = List.range' s n
  | 0, _ => rfl
  | n + 1, s => by
    rw [ascPortsAux, List.range'_succ, ascPortsAux_eq_range' n (s + 1)]

lemma ascPorts_eq_range' (s e : Nat) :
    ascPorts s e = List.range' s (e + 1 - s) :=
  ascPortsAux_eq_range' (e + 1 - s) s

/-- The fixed parameters of `rng0` give a full-period walk for any interval
of at most three values. -/
lemma rng0_full (n : Nat) (h : n ≤ 3) : (LcgParams.mk 3 1 1 0).full n :=
  ⟨by decide, h, by decide⟩

/-- `rng0` suits any range list whose ranges each hold at most three ports. -/
lemma rng0_goodFor (ranges : List (Nat × Nat))
    (h : ∀ i (hi : i < ranges.length),
      (ranges.get ⟨i, hi⟩).2 + 1 - (ranges.get ⟨i, hi⟩).1 ≤ 3) :
    rng0.goodFor ranges :=
  ⟨fun i hi => rng0_full _ (h i hi), fun l => List.Perm.refl l⟩

/-! ### Claim theorems -/

/-- C1 (counterexample): on the Serial strategy over the overlapping ranges
`(1,3)` and `(2,4)` the sequence `order()` returns is `[1,2,3,2,3,4]`, which
contains duplicate ports — the claimed no-duplicates invariant fails for
independently-configured overlapping ranges. -/
theorem overlapping_ranges_order_has_duplicates :
    (PortStrategy.Serial ⟨[(1, 3), (2, 4)]⟩).order rng0 = [1, 2, 3, 2, 3, 4] ∧
      ¬ ((PortStrategy.Serial ⟨[(1, 3), (2, 4)]⟩).order rng0).Nodup :=
  ⟨by decide, by decide⟩

/-- C1 (amended): for every Strategy variant, `order()` returns a sequence
whose length equals the port count implied by its data (the sum of
`end - start + 1` over all ranges, or the explicit list length), with every
port inside the configured bounds; it has no duplicates provided the
configured data itself has none (a duplicate-free explicit list, or pairwise
disjoint ranges), and for the Random variant provided the drawn walk
parameters are full-period. -/
theorem order_length_bounds_nodup (s : PortStrategy) (rng : Rng)
    (hrng : rngOk s rng) :
    (s.order rng).length = impliedCount s ∧
      (∀ x ∈ s.order rng, withinBounds s x) ∧
      (dataNodup s → (s.order rng).Nodup) := by
  cases s with
  | Manual ports => exact ⟨rfl, fun x hx => hx, fun hnd => hnd⟩
  | Serial r =>
    exact ⟨SerialRange.generate_length r,
      fun x hx => (SerialRange.mem_generate r x).mp hx,
      fun hnd => SerialRange.generate_nodup r hnd⟩
  | Random r =>
    have hp := RandomRange.generate_perm r rng hrng
    refine ⟨?_, ?_, ?_⟩
    · rw [show (PortStrategy.Random r).order rng = r.generate rng from rfl,
        hp.length_eq]
      exact SerialRange.generate_length ⟨r.ranges⟩
    · intro x hx
      exact (SerialRange.mem_generate ⟨r.ranges⟩ x).mp (hp.mem_iff.mp hx)
    · exact fun hnd => hp.nodup_iff.mpr (SerialRange.generate_nodup ⟨r.ranges⟩ hnd)

/-- C1 (witness): the amended invariant instantiated on the Random strategy
over the single range `(1,3)` with the concrete full-period rng `rng0`. -/
theorem order_length_bounds_nodup_witness :
    rngOk (PortStrategy.Random ⟨[(1, 3)]⟩) rng0 ∧
      (((PortStrategy.Random ⟨[(1, 3)]⟩).order rng0).length =
          impliedCount (PortStrategy.Random ⟨[(1, 3)]⟩) ∧
        (∀ x ∈ (PortStrategy.Random ⟨[(1, 3)]⟩).order rng0,
            withinBounds (PortStrategy.Random ⟨[(1, 3)]⟩) x) ∧
        (dataNodup (PortStrategy.Random ⟨[(1, 3)]⟩) →
          ((PortStrategy.Random ⟨[(1, 3)]⟩).order rng0).Nodup)) :=
  ⟨rng0_goodFor [(1, 3)] (by decide),
    order_length_bounds_nodup (PortStrategy.Random ⟨[(1, 3)]⟩) rng0
      (rng0_goodFor [(1, 3)] (by decide))⟩

/-- C2: for every range `(s,e)` with `s ≤ e` under the Random policy, the
sorted form of the sequence `order()` returns is exactly the ascending list
`s, s+1, …, e`: the permutation engine emits every integer of the interval
exactly once, for any full-period drawn parameters and any shuffle. -/
theorem random_range_order_covers (s e : Nat) (_hse : s ≤ e) (rng : Rng)
    (h : rng.goodFor [(s, e)]) :
    sortedForm ((PortStrategy.Random ⟨[(s, e)]⟩).order rng) = ascPorts s e := by
  have hp := RandomRange.generate_perm ⟨[(s, e)]⟩ rng h
  have h2 : SerialRange.generate ⟨[(s, e)]⟩ = List.range' s (e + 1 - s) := by
    simp [SerialRange.generate, rangePorts]
  rw [show (PortStrategy.Random ⟨[(s, e)]⟩).order rng =
      RandomRange.generate ⟨[(s, e)]⟩ rng from rfl,
    sortedForm_eq_of_perm hp, h2, sortedForm_range', ascPorts_eq_range']

/-- C2 (witness): the Random strategy over `(1,3)` with the concrete
full-period rng `rng0` sorts back to `[1,2,3]`. -/
theorem random_range_order_covers_witness :
    1 ≤ 3 ∧ rng0.goodFor [(1, 3)] ∧
      sortedForm ((PortStrategy.Random ⟨[(1, 3)]⟩).order rng0) = ascPorts 1 3 :=
  ⟨by decide, rng0_goodFor [(1, 3)] (by decide),
    random_range_order_covers 1 3 (by decide) rng0
      (rng0_goodFor [(1, 3)] (by decide))⟩

/-- C3: for every RangeSet under the Serial policy, `order()` equals the
concatenation, in range declaration order, of the ascending integer
sequences from each range's start to its end inclusive. -/
theorem serial_order_is_ascending_concat (r : SerialRange) (rng : Rng) :
    (PortStrategy.Serial r).order rng =
      r.ranges.flatMap (fun pr => ascPorts pr.1 pr.2) := by
  show r.generate = _
  have hfun : rangePorts = fun pr : Nat × Nat => ascPorts pr.1 pr.2 :=
    funext fun pr => by simp [rangePorts, ascPorts_eq_range']
  rw [SerialRange.generate, hfun]

/-- C4: for every explicit port list `P` picked with the Random policy, the
constructed strategy is Manual holding `P` shuffled once at construction
time, and `order()` returns a permutation of `P`: its sorted form equals
sorted `P`. -/
theorem pick_random_ports_shuffles (P : List Nat) (range : Option PortRange)
    (shuffle : List Nat → List Nat) (hsh : List.Perm (shuffle P) P) (rng : Rng) :
    PortStrategy.pick range (some P) ScanOrder.Random shuffle =
        some (PortStrategy.Manual (shuffle P)) ∧
      sortedForm ((PortStrategy.Manual (shuffle P)).order rng) = sortedForm P :=
  ⟨rfl, sortedForm_eq_of_perm hsh⟩

/-- C4 (witness): picking the explicit list `[3,1,2]` with the Random policy
and the reversal shuffle. -/
theorem pick_random_ports_shuffles_witness :
    List.Perm (List.reverse [3, 1, 2]) [3, 1, 2] ∧
      (PortStrategy.pick none (some [3, 1, 2]) ScanOrder.Random List.reverse =
          some (PortStrategy.Manual (List.reverse [3, 1, 2])) ∧
        sortedForm ((PortStrategy.Manual (List.reverse [3, 1, 2])).order rng0) =
          sortedForm [3, 1, 2]) :=
  ⟨by decide,
    pick_random_ports_shuffles [3, 1, 2] none List.reverse (by decide) rng0⟩

/-- C5: for every explicit port list `P` picked with the Serial policy, the
constructed strategy is Manual holding `P` verbatim, and `order()` returns
`P` unchanged, in its original order. -/
theorem pick_serial_ports_identity (P : List Nat) (range : Option PortRange)
    (shuffle : List Nat → List Nat) (rng : Rng) :
    PortStrategy.pick range (some P) ScanOrder.Serial shuffle =
        some (PortStrategy.Manual P) ∧
      (PortStrategy.Manual P).order rng = P :=
  ⟨rfl, rfl⟩

/-- C6: when both the range set and the explicit port list are absent,
`pick` fails (the `.unwrap()` on the missing range, modelled as `none`)
rather than returning a Strategy, under either policy. -/
theorem pick_missing_inputs_fails (order : ScanOrder)
    (shuffle : List Nat → List Nat) :
    PortStrategy.pick none none order shuffle = none := by
  cases order <;> rfl

/-- C7 (counterexample): Serial generation over the inverted range `(5,3)`
(start > end) does not fail: it succeeds and returns the empty sequence,
contrary to the claimed unrecoverable precondition violation. -/
theorem inverted_range_generate_succeeds :
    (SerialRange.mk [(5, 3)]).generate = [] := by decide

/-- C7 (amended): a range with `start > end` is not a failure: Serial
generation succeeds and such a range contributes no ports at all, yielding
the empty sequence. -/
theorem inverted_range_contributes_nothing (s e : Nat) (h : e < s)
    (rng : Rng) :
    (PortStrategy.Serial ⟨[(s, e)]⟩).order rng = [] := by
  show SerialRange.generate _ = _
  simp [SerialRange.generate, rangePorts, Nat.sub_eq_zero_of_le h]

/-- C7 (witness): the amended statement instantiated on the range `(5,3)`. -/
theorem inverted_range_contributes_nothing_witness :
    3 < 5 ∧ (PortStrategy.Serial ⟨[(5, 3)]⟩).order rng0 = [] :=
  ⟨by decide, inverted_range_contributes_nothing 5 3 (by decide) rng0⟩

/-- C8: for every single-element range `(k,k)`, `order()` returns exactly
`[k]` under both the Serial and the Random policy (the latter for any
full-period drawn parameters and any shuffle). -/
theorem single_element_range_order (k : Nat) (rng : Rng)
    (h : rng.goodFor [(k, k)]) :
    (PortStrategy.Serial ⟨[(k, k)]⟩).order rng = [k] ∧
      (PortStrategy.Random ⟨[(k, k)]⟩).order rng = [k] := by
  have hser : SerialRange.generate ⟨[(k, k)]⟩ = [k] := by
    have h1 : k + 1 - k = 1 := by omega
    simp [SerialRange.generate, rangePorts, h1]
  refine ⟨hser, ?_⟩
  have hp := RandomRange.generate_perm ⟨[(k, k)]⟩ rng h
  rw [hser] at hp
  exact List.perm_singleton.mp hp

/-- C8 (witness): the single-element range `(7,7)` with the concrete
full-period rng `rng0`. -/
theorem single_element_range_order_witness :
    rng0.goodFor [(7, 7)] ∧
      ((PortStrategy.Serial ⟨[(7, 7)]⟩).order rng0 = [7] ∧
        (PortStrategy.Random ⟨[(7, 7)]⟩).order rng0 = [7]) :=
  ⟨rng0_goodFor [(7, 7)] (by decide),
    single_element_range_order 7 rng0 (rng0_goodFor [(7, 7)] (by decide))⟩

/-- C9: `order()` is deterministic on the Manual and Serial variants — any
two rng draws give equal sequences (for an explicit list under the Random
policy the single shuffle happens at `pick` time, and the stored Manual list
is returned as-is ever after) — while the Random(ranges) variant can return
different sequences under different draws. -/
theorem manual_serial_order_deterministic (ports : List Nat) (r : SerialRange)
    (r1 r2 : Rng) :
    (PortStrategy.Manual ports).order r1 = (PortStrategy.Manual ports).order r2 ∧
      (PortStrategy.Serial r).order r1 = (PortStrategy.Serial r).order r2 ∧
      ∃ (rr : RandomRange) (a b : Rng),
        (∀ l, List.Perm (a.shuffle l) l) ∧ (∀ l, List.Perm (b.shuffle l) l) ∧
          (PortStrategy.Random rr).order a ≠ (PortStrategy.Random rr).order b :=
  ⟨rfl, rfl, ⟨[(1, 2)]⟩, rng0, rngRev, fun l => List.Perm.refl l,
    fun l => l.reverse_perm, by decide⟩

/-- C10: when both the range set and the explicit port list are present, the
explicit list takes precedence: `pick` builds a Manual strategy from the
ports (shuffled under the Random policy) and the ranges are ignored. -/
theorem pick_ports_take_precedence (r : PortRange) (P : List Nat)
    (shuffle : List Nat → List Nat) :
    PortStrategy.pick (some r) (some P) ScanOrder.Serial shuffle =
        some (PortStrategy.Manual P) ∧
      PortStrategy.pick (some r) (some P) ScanOrder.Random shuffle =
        some (PortStrategy.Manual (shuffle P)) :=
  ⟨rfl, rfl⟩

end RustScan
